import Mathlib

/-!
# Verification of the credential core of EAG_v1_Chapter8

Shallow embedding, in Lean 4, of the credential-management core of the
repository: `enhanced_credential_manager.py` (the `SecureCredentialManager`
class) and `manual_oauth_simple.py` (the manual OAuth token exchange).

Bytes are modelled as `Nat` values below 256, file contents as `List Char`,
the filesystem and process environment as an explicit state record.
External libraries (the `cryptography` Fernet AEAD and the Google
service-account loader) are not part of the repository; they are modelled
from the specification's description of them, and each such definition is
marked `Modelled from the spec:` in its doc comment.
-/

/-! ## Byte-level primitives: keystream XOR, MAC, base64

These support the embedding of `encrypt_credential` / `decrypt_credential`
(`enhanced_credential_manager.py` lines 42-52), which wrap the Fernet AEAD
in standard base64. -/

/-- A byte is a `Nat` below 256. -/
def isByte (b : Nat) : Prop := b < 256

instance (b : Nat) : Decidable (isByte b) := by unfold isByte; infer_instance

/-- XOR a byte list against a keystream derived from seed `s`, starting at
stream position `i`.  XOR is an involution, which is what the round-trip
property of the cipher rests on. -/
def xorKS (s : Nat) (i : Nat) : List Nat → List Nat
  | [] => []
  | b :: bs => (b ^^^ ((s + i) % 256)) :: xorKS s (i + 1) bs

/-- Modelled from the spec: the keystream seed the cipher derives from the
key and the per-call nonce (the Fernet AEAD itself is external to the
repository). -/
def ksSeed (key nonce : List Nat) : Nat :=
  key.sum * 131 + nonce.sum * 17 + key.length

/-- Modelled from the spec: the 32-byte authentication tag over the nonce
and ciphertext ("ciphertext + integrity tag + nonce", spec §3). -/
def macTag (key msg : List Nat) : List Nat :=
  (List.range 32).map (fun i => (key.sum * 31 + msg.sum * 7 + msg.length * 3 + i) % 256)

/-- Modelled from the spec: `KeyManager.encrypt` — "authenticated symmetric
encryption with a freshly drawn nonce per call; output is a self-contained
token (nonce + ciphertext + tag)" (spec §4.1).  The nonce is an explicit
argument standing for the fresh randomness drawn on each call. -/
def fernetEncrypt (key nonce p : List Nat) : List Nat :=
  nonce ++ xorKS (ksSeed key nonce) 0 p ++ macTag key (nonce ++ xorKS (ksSeed key nonce) 0 p)

/-- Modelled from the spec: `KeyManager.decrypt` — "fails with
`IntegrityError` if the tag does not verify … must not return partial or
best-guess plaintext" (spec §4.1); failure is `none`. -/
def fernetDecrypt (key tok : List Nat) : Option (List Nat) :=
  if 48 ≤ tok.length then
    let nonce := tok.take 16
    let body := tok.drop 16
    let ct := body.take (body.length - 32)
    let tag := body.drop (body.length - 32)
    if tag = macTag key (nonce ++ ct) then some (xorKS (ksSeed key nonce) 0 ct)
    else none
  else none

/-- The standard base64 alphabet, as ASCII codes: A-Z, a-z, 0-9, +, /. -/
def b64alphabet : List Nat :=
  [65, 66, 67, 68, 69, 70, 71, 72, 73, 74, 75, 76, 77, 78, 79, 80, 81, 82,
   83, 84, 85, 86, 87, 88, 89, 90,
   97, 98, 99, 100, 101, 102, 103, 104, 105, 106, 107, 108, 109, 110, 111,
   112, 113, 114, 115, 116, 117, 118, 119, 120, 121, 122,
   48, 49, 50, 51, 52, 53, 54, 55, 56, 57, 43, 47]

/-- The ASCII code encoding a sextet. -/
def b64char (s : Nat) : Nat := b64alphabet.getD s 0

/-- The sextet an ASCII code stands for, `none` for a non-alphabet byte
(in particular for the pad byte 61, ASCII `=`). -/
def b64charInv (c : Nat) : Option Nat :=
  b64alphabet.findIdx? (fun x => x == c)

/-- Embedding of `base64.b64encode`: bytes to the ASCII codes of their standard base64
encoding, with `=` (61) padding. -/
def b64encode : List Nat → List Nat
  | [] => []
  | [a] => [b64char (a / 4), b64char (a % 4 * 16), 61, 61]
  | [a, b] => [b64char (a / 4), b64char (a % 4 * 16 + b / 16), b64char (b % 16 * 4), 61]
  | a :: b :: d :: rest =>
      b64char (a / 4) :: b64char (a % 4 * 16 + b / 16) ::
      b64char (b % 16 * 4 + d / 64) :: b64char (d % 64) :: b64encode rest

/-- Embedding of `base64.b64decode` on well-formed input: ASCII codes back to bytes,
`none` on malformed input. -/
def b64decode : List Nat → Option (List Nat)
  | [] => some []
  | w :: x :: y :: z :: rest =>
    match b64charInv w, b64charInv x with
    | some s1, some s2 =>
      if y = 61 then
        if z = 61 ∧ rest = [] ∧ s2 % 16 = 0 then some [s1 * 4 + s2 / 16] else none
      else
        match b64charInv y with
        | some s3 =>
          if z = 61 then
            if rest = [] ∧ s3 % 4 = 0 then some [s1 * 4 + s2 / 16, s2 % 16 * 16 + s3 / 4]
            else none
          else
            match b64charInv z with
            | some s4 =>
              (b64decode rest).map
                (fun t => (s1 * 4 + s2 / 16) :: (s2 % 16 * 16 + s3 / 4) :: (s3 % 4 * 64 + s4) :: t)
            | none => none
        | none => none
    | _, _ => none
  | _ => none

/-- Embedding of `encrypt_credential` (`enhanced_credential_manager.py` lines 42-46):
Fernet-encrypt the plaintext bytes, then base64-encode the token.  The
plaintext argument stands for `value.encode()`; the nonce argument stands
for the fresh nonce Fernet draws inside `f.encrypt`. -/
def encrypt_credential (key nonce p : List Nat) : List Nat :=
  b64encode (fernetEncrypt key nonce p)

/-- Embedding of `decrypt_credential` (`enhanced_credential_manager.py` lines 48-52):
base64-decode, then Fernet-decrypt; any failure (malformed base64, bad tag)
raises in the source and is `none` here. -/
def decrypt_credential (key ev : List Nat) : Option (List Nat) :=
  (b64decode ev).bind (fernetDecrypt key)

/-! ## Text files as character lists

`.env`-style file contents are `List Char`; Python's `content.split('\n')`,
`'\n'.join(lines)`, `line.startswith(prefix)` and `substring in content`
are embedded as `splitNL`, `joinNL`, `isPref` and `hasSub`. -/

/-- Worker for `splitNL`: the first newline-delimited group of `s` and the
remaining groups. -/
def splitNLAux : List Char → List Char × List (List Char)
  | [] => ([], [])
  | c :: cs =>
    if c = '\n' then ([], (splitNLAux cs).1 :: (splitNLAux cs).2)
    else (c :: (splitNLAux cs).1, (splitNLAux cs).2)

/-- Embedding of `content.split('\n')`: split a character list at every newline; the
result is always non-empty, and splitting the empty list yields `[[]]`,
mirroring `"".split('\n') == [""]`. -/
def splitNL (s : List Char) : List (List Char) :=
  (splitNLAux s).1 :: (splitNLAux s).2

/-- Embedding of `'\n'.join(lines)`. -/
def joinNL : List (List Char) → List Char
  | [] => []
  | [g] => g
  | g :: g' :: gs => g ++ '\n' :: joinNL (g' :: gs)

/-- Embedding of `s.startswith(p)` on character lists. -/
def isPref : List Char → List Char → Bool
  | [], _ => true
  | _ :: _, [] => false
  | p :: ps, c :: cs => p == c && isPref ps cs

/-- Embedding of `pat in s`: Python substring containment on character lists. -/
def hasSub (pat : List Char) : List Char → Bool
  | [] => isPref pat []
  | c :: t => isPref pat (c :: t) || hasSub pat t

/-- The loop body of `_update_env_var`
(`enhanced_credential_manager.py` lines 119-130): replace the first line
starting with `key=`, appending a fresh `key=value` line when none does. -/
def updateLines (key value : List Char) : List (List Char) → List (List Char)
  | [] => [key ++ '=' :: value]
  | l :: ls =>
    if isPref (key ++ ['=']) l then (key ++ '=' :: value) :: ls
    else l :: updateLines key value ls

/-- The update loop of `update_env_with_refresh_token`
(`manual_oauth_simple.py` lines 159-164): replace the first line starting
with `key=` and stop; if none does, the lines are left unchanged. -/
def replaceFirstLine (key value : List Char) : List (List Char) → List (List Char)
  | [] => []
  | l :: ls =>
    if isPref (key ++ ['=']) l then (key ++ '=' :: value) :: ls
    else l :: replaceFirstLine key value ls

/-- Embedding of `_update_env_var` on the file content
(`enhanced_credential_manager.py` lines 112-133): a missing file reads as
the empty string; split into lines, replace-or-append, join, write back. -/
def update_env_var_content (key value : List Char) (file : Option (List Char)) : List Char :=
  joinNL (updateLines key value (splitNL (file.getD [])))

/-- One key's branch of `update_env_with_refresh_token`
(`manual_oauth_simple.py` lines 156-167): if `key=` occurs as a substring
of the content, replace the first line starting with `key=`; otherwise
append `\n` and a fresh `key=value` record. -/
def setEnvKey (key value c : List Char) : List Char :=
  if hasSub (key ++ ['=']) c then joinNL (replaceFirstLine key value (splitNL c))
  else c ++ '\n' :: (key ++ '=' :: value)

/-- The lines of `content` recording `key` (those starting with `key=`). -/
def linesFor (key content : List Char) : List (List Char) :=
  (splitNL content).filter (fun l => isPref (key ++ ['=']) l)

/-- The value stored for `key`: the first line starting with `key=`,
with that prefix removed. -/
def entryFor (key content : List Char) : Option (List Char) :=
  ((splitNL content).find? (fun l => isPref (key ++ ['=']) l)).map
    (fun l => l.drop (key.length + 1))

/-- The key `GMAIL_REFRESH_TOKEN` (`manual_oauth_simple.py` line 152). -/
def gmailKey : List Char :=
  ['G', 'M', 'A', 'I', 'L', '_', 'R', 'E', 'F', 'R', 'E', 'S', 'H', '_',
   'T', 'O', 'K', 'E', 'N']

/-- The key `GDRIVE_REFRESH_TOKEN` (`manual_oauth_simple.py` line 153). -/
def gdriveKey : List Char :=
  ['G', 'D', 'R', 'I', 'V', 'E', '_', 'R', 'E', 'F', 'R', 'E', 'S', 'H', '_',
   'T', 'O', 'K', 'E', 'N']

/-- Embedding of `update_env_with_refresh_token` (`manual_oauth_simple.py` lines
142-177): read `config/.env` (a missing or unreadable file raises, is
caught, and yields `False`, here `none`), set both refresh-token keys in
dict order (`GMAIL_REFRESH_TOKEN` first), write the result back. -/
def update_env_with_refresh_token (tok : List Char) (file : Option (List Char)) :
    Option (List Char) :=
  match file with
  | none => none
  | some c => some (setEnvKey gdriveKey tok (setEnvKey gmailKey tok c))

/-! ## The manager state and its operations

`CMState` is the state a `SecureCredentialManager` instance can observe:
the process environment overlay (`os.getenv`), the `config/.env` file, the
`config/service_account.json` file, and the `config/.encryption_key` file.
A file that is absent is `none`.  The service-account file holds either
unparseable bytes (`none`) or a parsed JSON object, modelled as an
association list of string fields. -/

structure CMState where
  procEnv : List (String × String)
  envFile : Option (List Char)
  serviceAccountFile : Option (Option (List (String × String)))
  keyFile : Option (List Nat)
deriving DecidableEq

/-- The list `required_fields` (`enhanced_credential_manager.py` line 72). -/
def required_fields : List String :=
  ["type", "project_id", "private_key", "client_email"]

/-- Embedding of `field in sa_data` on the parsed JSON object. -/
def hasField (o : List (String × String)) (f : String) : Bool :=
  (o.map Prod.fst).contains f

/-- Embedding of `_get_or_create_encryption_key` (`enhanced_credential_manager.py`
lines 27-40): return the key file's bytes if it exists, otherwise write
and return a fresh key; `fresh` stands for the randomness
`Fernet.generate_key()` would draw. -/
def get_or_create_encryption_key (st : CMState) (fresh : List Nat) :
    List Nat × CMState :=
  match st.keyFile with
  | some k => (k, st)
  | none => (fresh, { st with keyFile := some fresh })

/-- Embedding of `_update_env_var` as a state transition: only the `.env` file changes. -/
def update_env_var (st : CMState) (key value : List Char) : CMState :=
  { st with envFile := some (update_env_var_content key value st.envFile) }

/-- Embedding of `set_service_account_credentials` (`enhanced_credential_manager.py`
lines 54-87).  `src` is the file at the caller-supplied path: absent
(`none`), present but not JSON (`some none`), or parsed (`some (some o)`).
The source copies the file into `config/service_account.json` *before*
validating it; a `json.load` failure or a missing required field is caught
and yields `False` with the copy already written. -/
def set_service_account_credentials (st : CMState)
    (src : Option (Option (List (String × String)))) : Bool × CMState :=
  match src with
  | none => (false, st)
  | some f =>
    let st1 := { st with serviceAccountFile := some f }
    match f with
    | none => (false, st1)
    | some o =>
      if required_fields.all (fun fld => hasField o fld) then
        let st2 := update_env_var st1 "USE_SERVICE_ACCOUNT".toList "true".toList
        let st3 := update_env_var st2 "SERVICE_ACCOUNT_FILE".toList
          "config/service_account.json".toList
        (true, st3)
      else (false, st1)

/-- The fixed scope list (`enhanced_credential_manager.py` lines 95-100). -/
def scopes_list : List String :=
  ["https://www.googleapis.com/auth/gmail.send",
   "https://www.googleapis.com/auth/gmail.readonly",
   "https://www.googleapis.com/auth/drive.file",
   "https://www.googleapis.com/auth/spreadsheets"]

/-- Modelled from the spec: `service_account.Credentials.from_service_account_file`
from the external Google auth library — "constructs a scoped credential
object from stored key material" (spec §4.5); it raises (here `none`) on
unparseable files and on key material missing a required field. -/
def from_service_account_file (f : Option (List (String × String))) :
    Option (List (String × String) × List String) :=
  match f with
  | none => none
  | some o =>
    if required_fields.all (fun fld => hasField o fld) then some (o, scopes_list)
    else none

/-- Embedding of `get_service_account_credentials` (`enhanced_credential_manager.py`
lines 89-110): `None` when the stored file is absent; any exception while
loading is caught and also yields `None`. -/
def get_service_account_credentials (st : CMState) :
    Option (List (String × String) × List String) :=
  match st.serviceAccountFile with
  | none => none
  | some f => from_service_account_file f

/-- Embedding of `os.getenv(k, '')`: the process environment overlay, never the file. -/
def getenv (st : CMState) (k : String) : String :=
  (st.procEnv.lookup k).getD ""

/-- Embedding of `get_telegram_credentials` (`enhanced_credential_manager.py` lines
135-140): `(bot_token, chat_id)` from the environment overlay. -/
def get_telegram_credentials (st : CMState) : String × String :=
  (getenv st "TELEGRAM_BOT_TOKEN", getenv st "TELEGRAM_CHAT_ID")

/-- The result of `validate_all_credentials`: the `service_account` and
`telegram` entries of the returned dict. -/
structure ValidationResult where
  service_account : Bool
  telegram : Bool
deriving DecidableEq

/-- Embedding of `validate_all_credentials` (`enhanced_credential_manager.py` lines
142-154): the service-account flag is whether credentials load; the
telegram flag is the truthiness of `bot_token and chat_id`. -/
def validate_all_credentials (st : CMState) : ValidationResult :=
  { service_account := (get_service_account_credentials st).isSome,
    telegram := (getenv st "TELEGRAM_BOT_TOKEN" != "")
      && (getenv st "TELEGRAM_CHAT_ID" != "") }

/-- A token-endpoint response as `exchange_for_refresh_token` observes it:
HTTP status, the JSON body (`none` when `response.json()` raises), and the
raw text. -/
structure TokenResponse where
  status : Nat
  jsonBody : Option (List (String × String))
  text : List Char
deriving DecidableEq

/-- Embedding of `exchange_for_refresh_token` (`manual_oauth_simple.py` lines 80-140)
acting on the token response and the `.env` file: `True` (COMPLETE) only
on the HTTP-200, `'refresh_token' in token_data`, file-written path; every
other path returns `False` (FAILED) with the file untouched. -/
def exchange_for_refresh_token (resp : TokenResponse) (file : Option (List Char)) :
    Bool × Option (List Char) :=
  if resp.status = 200 then
    match resp.jsonBody with
    | none => (false, file)
    | some td =>
      match td.lookup "refresh_token" with
      | some rt =>
        match update_env_with_refresh_token rt.toList file with
        | some c' => (true, some c')
        | none => (false, file)
      | none => (false, file)
  else (false, file)

/-! ### Lemmas about the byte-level primitives -/

theorem xorKS_xorKS (s : Nat) (p : List Nat) :
    ∀ i, xorKS s i (xorKS s i p) = p := by
  induction p with
  | nil => intro i; rfl
  | cons b bs ih =>
      intro i
      simp [xorKS, ih (i + 1), Nat.xor_assoc, Nat.xor_self]

theorem xorKS_length (s : Nat) (p : List Nat) : ∀ i, (xorKS s i p).length = p.length := by
  induction p with
  | nil => intro i; rfl
  | cons b bs ih => intro i; simp [xorKS, ih (i + 1)]

theorem xorKS_bytes (s : Nat) (p : List Nat) (hp : ∀ b ∈ p, isByte b) :
    ∀ i, ∀ b ∈ xorKS s i p, isByte b := by
  induction p with
  | nil => intro i b hb; cases hb
  | cons c cs ih =>
      intro i b hb
      simp only [xorKS] at hb
      rcases List.mem_cons.mp hb with rfl | h
      · have hc : isByte c := hp c (by simp)
        have hm : (s + i) % 256 < 256 := Nat.mod_lt _ (by omega)
        have : c ^^^ ((s + i) % 256) < 2 ^ 8 :=
          Nat.xor_lt_two_pow (by exact_mod_cast hc) (by exact_mod_cast hm)
        simpa [isByte] using this
      · exact ih (fun b hb => hp b (by simp [hb])) (i + 1) b h

theorem macTag_length (key msg : List Nat) : (macTag key msg).length = 32 := by
  simp [macTag]

theorem macTag_bytes (key msg : List Nat) : ∀ b ∈ macTag key msg, isByte b := by
  intro b hb
  simp only [macTag, List.mem_map, List.mem_range] at hb
  obtain ⟨i, _, rfl⟩ := hb
  exact Nat.mod_lt _ (by omega)

theorem b64charInv_b64char : ∀ s < 64, b64charInv (b64char s) = some s := by decide

theorem b64char_ne_pad : ∀ s < 64, b64char s ≠ 61 := by decide

theorem b64_roundtrip (p : List Nat) (hp : ∀ b ∈ p, isByte b) :
    b64decode (b64encode p) = some p := by
  induction p using b64encode.induct with
  | case1 => rfl
  | case2 a =>
      have ha : a < 256 := hp a (by simp)
      have h1 := b64charInv_b64char (a / 4) (by omega)
      have h2 := b64charInv_b64char (a % 4 * 16) (by omega)
      have h3 : a % 4 * 16 % 16 = 0 := by omega
      have h4 : a / 4 * 4 + a % 4 * 16 / 16 = a := by omega
      simp [b64encode, b64decode, h1, h2, h3]
      omega
  | case3 a b =>
      have ha : a < 256 := hp a (by simp)
      have hb : b < 256 := hp b (by simp)
      have h1 := b64charInv_b64char (a / 4) (by omega)
      have h2 := b64charInv_b64char (a % 4 * 16 + b / 16) (by omega)
      have hy : b64char (b % 16 * 4) ≠ 61 := b64char_ne_pad _ (by omega)
      have h3 := b64charInv_b64char (b % 16 * 4) (by omega)
      have h5 : b % 16 * 4 % 4 = 0 := by omega
      have h6 : a / 4 * 4 + (a % 4 * 16 + b / 16) / 16 = a := by omega
      have h7 : (a % 4 * 16 + b / 16) % 16 * 16 + b % 16 * 4 / 4 = b := by omega
      simp [b64encode, b64decode, h1, h2, hy, h3, h5]
      constructor <;> omega
  | case4 a b d rest ih =>
      have ha : a < 256 := hp a (by simp)
      have hb : b < 256 := hp b (by simp)
      have hd : d < 256 := hp d (by simp)
      have hrest : ∀ x ∈ rest, isByte x := fun x hx => hp x (by simp [hx])
      have h1 := b64charInv_b64char (a / 4) (by omega)
      have h2 := b64charInv_b64char (a % 4 * 16 + b / 16) (by omega)
      have hy : b64char (b % 16 * 4 + d / 64) ≠ 61 := b64char_ne_pad _ (by omega)
      have h3 := b64charInv_b64char (b % 16 * 4 + d / 64) (by omega)
      have hz : b64char (d % 64) ≠ 61 := b64char_ne_pad _ (by omega)
      have h4 := b64charInv_b64char (d % 64) (by omega)
      have h6 : a / 4 * 4 + (a % 4 * 16 + b / 16) / 16 = a := by omega
      have h7 : (a % 4 * 16 + b / 16) % 16 * 16 + (b % 16 * 4 + d / 64) / 4 = b := by omega
      have h8 : (b % 16 * 4 + d / 64) % 4 * 64 + d % 64 = d := by omega
      simp [b64encode, b64decode, h1, h2, hy, h3, hz, h4, ih hrest, h6, h7, h8]

theorem fernet_roundtrip (key nonce p : List Nat) (hn : nonce.length = 16) :
    fernetDecrypt key (fernetEncrypt key nonce p) = some p := by
  have hctlen : (xorKS (ksSeed key nonce) 0 p).length = p.length := xorKS_length _ _ _
  have htag : (macTag key (nonce ++ xorKS (ksSeed key nonce) 0 p)).length = 32 :=
    macTag_length _ _
  have hassoc : fernetEncrypt key nonce p =
      nonce ++ (xorKS (ksSeed key nonce) 0 p ++
        macTag key (nonce ++ xorKS (ksSeed key nonce) 0 p)) := by
    simp [fernetEncrypt]
  have hlen : (fernetEncrypt key nonce p).length = 48 + p.length := by
    simp [fernetEncrypt, hn, hctlen, htag]; omega
  have h1 : (fernetEncrypt key nonce p).take 16 = nonce := by
    rw [hassoc]; exact List.take_left' hn
  have h2 : (fernetEncrypt key nonce p).drop 16 =
      xorKS (ksSeed key nonce) 0 p ++ macTag key (nonce ++ xorKS (ksSeed key nonce) 0 p) := by
    rw [hassoc]; exact List.drop_left' hn
  have h3 : ((fernetEncrypt key nonce p).drop 16).length - 32 =
      (xorKS (ksSeed key nonce) 0 p).length := by
    rw [h2]; simp [htag]
  have h4 : (xorKS (ksSeed key nonce) 0 p ++
      macTag key (nonce ++ xorKS (ksSeed key nonce) 0 p)).length - 32 =
      (xorKS (ksSeed key nonce) 0 p).length := by
    simp [htag]
  simp only [fernetDecrypt, hlen, h1, h2, h4]
  rw [if_pos (by omega)]
  rw [List.take_left, List.drop_left]
  rw [if_pos rfl]
  rw [xorKS_xorKS]

theorem fernetEncrypt_bytes (key nonce p : List Nat)
    (hnb : ∀ b ∈ nonce, isByte b) (hp : ∀ b ∈ p, isByte b) :
    ∀ b ∈ fernetEncrypt key nonce p, isByte b := by
  intro b hb
  simp only [fernetEncrypt, List.mem_append] at hb
  rcases hb with (h | h) | h
  · exact hnb b h
  · exact xorKS_bytes _ p hp 0 b h
  · exact macTag_bytes _ _ b h

theorem fernetEncrypt_take16 (key nonce p : List Nat) (hn : nonce.length = 16) :
    (fernetEncrypt key nonce p).take 16 = nonce := by
  have : fernetEncrypt key nonce p = nonce ++ (xorKS (ksSeed key nonce) 0 p ++
      macTag key (nonce ++ xorKS (ksSeed key nonce) 0 p)) := by simp [fernetEncrypt]
  rw [this]; exact List.take_left' hn

/-- C1: decrypting the result of encrypting any plaintext under the same
master key returns exactly the plaintext. -/
theorem C1_decrypt_encrypt_roundtrip (key nonce p : List Nat)
    (hn : nonce.length = 16) (hnb : ∀ b ∈ nonce, isByte b) (hp : ∀ b ∈ p, isByte b) :
    decrypt_credential key (encrypt_credential key nonce p) = some p := by
  unfold decrypt_credential encrypt_credential
  rw [b64_roundtrip _ (fernetEncrypt_bytes key nonce p hnb hp)]
  simp [fernet_roundtrip key nonce p hn]

/-- Witness for C1 at a concrete key, nonce and plaintext. -/
theorem C1_decrypt_encrypt_roundtrip_witness :
    (List.replicate 16 7).length = 16 ∧
      decrypt_credential [9, 3] (encrypt_credential [9, 3] (List.replicate 16 7) [104, 105])
        = some [104, 105] :=
  ⟨by decide,
    C1_decrypt_encrypt_roundtrip [9, 3] (List.replicate 16 7) [104, 105]
      (by decide) (by decide) (by decide)⟩

/-- C7: encrypting the same plaintext twice under the same key with the two
distinct fresh nonces the two calls draw yields two different encoded
outputs. -/
theorem C7_encrypt_nonce_distinct (key n1 n2 p : List Nat)
    (hne : n1 ≠ n2) (h1 : n1.length = 16) (h2 : n2.length = 16)
    (hb1 : ∀ b ∈ n1, isByte b) (hb2 : ∀ b ∈ n2, isByte b) (hp : ∀ b ∈ p, isByte b) :
    encrypt_credential key n1 p ≠ encrypt_credential key n2 p := by
  intro heq
  have htok := congrArg b64decode heq
  rw [show encrypt_credential key n1 p = b64encode (fernetEncrypt key n1 p) from rfl,
    show encrypt_credential key n2 p = b64encode (fernetEncrypt key n2 p) from rfl,
    b64_roundtrip _ (fernetEncrypt_bytes key n1 p hb1 hp),
    b64_roundtrip _ (fernetEncrypt_bytes key n2 p hb2 hp)] at htok
  have htake := congrArg (List.take 16) (Option.some.inj htok)
  rw [fernetEncrypt_take16 key n1 p h1, fernetEncrypt_take16 key n2 p h2] at htake
  exact hne htake

/-- Witness for C7 at a concrete key, plaintext and pair of nonces. -/
theorem C7_encrypt_nonce_distinct_witness :
    List.replicate 16 7 ≠ List.replicate 16 8 ∧
      encrypt_credential [9, 3] (List.replicate 16 7) [104, 105]
        ≠ encrypt_credential [9, 3] (List.replicate 16 8) [104, 105] :=
  ⟨by decide,
    C7_encrypt_nonce_distinct [9, 3] (List.replicate 16 7) (List.replicate 16 8) [104, 105]
      (by decide) (by decide) (by decide) (by decide) (by decide) (by decide)⟩

/-! ### Lemmas about lines, prefixes and substrings -/

theorem splitNL_ne_nil (s : List Char) : splitNL s ≠ [] := by simp [splitNL]

theorem joinNL_cons_cons (c : Char) (g : List Char) (gs : List (List Char)) :
    joinNL ((c :: g) :: gs) = c :: joinNL (g :: gs) := by
  cases gs <;> simp [joinNL]

theorem joinNL_splitNL (s : List Char) : joinNL (splitNL s) = s := by
  induction s with
  | nil => rfl
  | cons c cs ih =>
      by_cases hc : c = '\n'
      · subst hc
        rw [show splitNL ('\n' :: cs) = [] :: splitNL cs by simp [splitNL, splitNLAux]]
        cases h : splitNL cs with
        | nil => exact absurd h (splitNL_ne_nil cs)
        | cons g gs =>
            simp only [joinNL, List.nil_append]
            rw [← h, ih]
      · rw [show splitNL (c :: cs) = (c :: (splitNLAux cs).1) :: (splitNLAux cs).2 by
            simp [splitNL, splitNLAux, hc]]
        rw [joinNL_cons_cons, show (splitNLAux cs).1 :: (splitNLAux cs).2 = splitNL cs from rfl,
          ih]

theorem splitNLAux_no_newline (g : List Char) (hg : '\n' ∉ g) :
    splitNLAux g = (g, []) := by
  induction g with
  | nil => rfl
  | cons c cs ih =>
      have hc : c ≠ '\n' := fun h => hg (by simp [h])
      have hcs : '\n' ∉ cs := fun h => hg (by simp [h])
      simp [splitNLAux, if_neg hc, ih hcs]

theorem splitNL_singleton (g : List Char) (hg : '\n' ∉ g) : splitNL g = [g] := by
  simp [splitNL, splitNLAux_no_newline g hg]

theorem splitNLAux_append_newline (s t : List Char) :
    splitNLAux (s ++ '\n' :: t) = ((splitNLAux s).1, (splitNLAux s).2 ++ splitNL t) := by
  induction s with
  | nil => simp [splitNLAux, splitNL]
  | cons c cs ih =>
      by_cases hc : c = '\n'
      · subst hc; simp [splitNLAux, ih, splitNL]
      · simp [splitNLAux, if_neg hc, ih]

theorem splitNL_append_newline (s t : List Char) :
    splitNL (s ++ '\n' :: t) = splitNL s ++ splitNL t := by
  simp [splitNL, splitNLAux_append_newline]

theorem not_newline_mem_splitNL (s : List Char) :
    ∀ l ∈ splitNL s, '\n' ∉ l := by
  induction s with
  | nil =>
      intro l hl
      simp [splitNL, splitNLAux] at hl
      simp [hl]
  | cons c cs ih =>
      intro l hl
      by_cases hc : c = '\n'
      · subst hc
        simp only [splitNL, splitNLAux, if_pos rfl] at hl
        rcases List.mem_cons.mp hl with rfl | hl
        · simp
        · exact ih l hl
      · simp only [splitNL, splitNLAux, if_neg hc] at hl
        rcases List.mem_cons.mp hl with rfl | hl
        · intro hmem
          rcases List.mem_cons.mp hmem with h1 | h1
          · exact hc h1.symm
          · exact ih (splitNLAux cs).1 (by simp [splitNL]) h1
        · exact ih l (by simp [splitNL, hl])

theorem splitNL_joinNL (gs : List (List Char)) (hne : gs ≠ [])
    (hnf : ∀ g ∈ gs, '\n' ∉ g) : splitNL (joinNL gs) = gs := by
  induction gs with
  | nil => exact absurd rfl hne
  | cons g gs ih =>
      cases gs with
      | nil => exact splitNL_singleton g (hnf g (by simp))
      | cons g' gs' =>
          simp only [joinNL, splitNL_append_newline]
          rw [splitNL_singleton g (hnf g (by simp)),
            ih (by simp) (fun x hx => hnf x (by simp [List.mem_cons] at hx ⊢; tauto))]
          rfl

theorem isPref_append (p r : List Char) : isPref p (p ++ r) = true := by
  induction p with
  | nil => rfl
  | cons x ps ih => simp [isPref, ih]

theorem isPref_iff (p s : List Char) : isPref p s = true ↔ ∃ r, s = p ++ r := by
  constructor
  · intro h
    induction p generalizing s with
    | nil => exact ⟨s, rfl⟩
    | cons x ps ih =>
        cases s with
        | nil => simp [isPref] at h
        | cons c cs =>
            simp only [isPref, Bool.and_eq_true, beq_iff_eq] at h
            obtain ⟨rfl, h2⟩ := h
            obtain ⟨r, rfl⟩ := ih cs h2
            exact ⟨r, rfl⟩
  · rintro ⟨r, rfl⟩
    exact isPref_append p r

theorem isPref_newline (p : List Char) (hp : '\n' ∉ p) (a b : List Char) :
    isPref p (a ++ '\n' :: b) = isPref p a := by
  induction p generalizing a with
  | nil => rfl
  | cons x ps ih =>
      have hx : x ≠ '\n' := fun h => hp (by simp [h])
      have hps : '\n' ∉ ps := fun h => hp (by simp [h])
      cases a with
      | nil =>
          simp only [List.nil_append, isPref]
          simp [beq_iff_eq, hx]
      | cons c a' =>
          simp only [List.cons_append, isPref, List.append_eq, ih hps a']

theorem hasSub_of_isPref (pat l : List Char) (h : isPref pat l = true) :
    hasSub pat l = true := by
  cases l with
  | nil => simpa [hasSub] using h
  | cons c t => simp [hasSub, h]

theorem hasSub_append_newline (pat : List Char) (hne : pat ≠ []) (hnl : '\n' ∉ pat)
    (a b : List Char) : hasSub pat (a ++ '\n' :: b) = (hasSub pat a || hasSub pat b) := by
  induction a with
  | nil =>
      obtain ⟨x, ps, rfl⟩ : ∃ x ps, pat = x :: ps := by
        cases pat with
        | nil => exact absurd rfl hne
        | cons x ps => exact ⟨x, ps, rfl⟩
      have hx : x ≠ '\n' := fun h => hnl (by simp [h])
      simp [hasSub, isPref, beq_iff_eq, hx]
  | cons c a' ih =>
      simp only [List.cons_append, hasSub, List.append_eq, ih, ← Bool.or_assoc]
      rw [show (c :: (a' ++ '\n' :: b)) = (c :: a') ++ '\n' :: b from rfl,
        isPref_newline pat hnl (c :: a') b]

theorem hasSub_joinNL (pat : List Char) (hne : pat ≠ []) (hnl : '\n' ∉ pat)
    (gs : List (List Char)) :
    hasSub pat (joinNL gs) = gs.any (fun g => hasSub pat g) := by
  induction gs with
  | nil =>
      obtain ⟨x, ps, rfl⟩ : ∃ x ps, pat = x :: ps := by
        cases pat with
        | nil => exact absurd rfl hne
        | cons x ps => exact ⟨x, ps, rfl⟩
      simp [joinNL, hasSub, isPref]
  | cons g gs ih =>
      cases gs with
      | nil => simp [joinNL]
      | cons g' gs' =>
          simp only [joinNL, hasSub_append_newline pat hne hnl, ih, List.any_cons]

theorem hasSub_splitNL (pat : List Char) (hne : pat ≠ []) (hnl : '\n' ∉ pat)
    (c : List Char) : hasSub pat c = (splitNL c).any (fun g => hasSub pat g) := by
  conv_lhs => rw [← joinNL_splitNL c]
  exact hasSub_joinNL pat hne hnl (splitNL c)

theorem find?_append_some (p : List Char → Bool) (l₁ l₂ : List (List Char))
    (x : List Char) (h : l₁.find? p = some x) : (l₁ ++ l₂).find? p = some x := by
  induction l₁ with
  | nil => simp [List.find?] at h
  | cons a l ih =>
      cases hpa : p a with
      | true =>
          rw [List.find?_cons_of_pos _ hpa] at h
          rw [List.cons_append, List.find?_cons_of_pos _ hpa]
          exact h
      | false =>
          rw [List.find?_cons_of_neg _ (by simp [hpa])] at h
          rw [List.cons_append, List.find?_cons_of_neg _ (by simp [hpa])]
          exact ih h

theorem find?_append_none (p : List Char → Bool) (l₁ l₂ : List (List Char))
    (h : l₁.find? p = none) : (l₁ ++ l₂).find? p = l₂.find? p := by
  induction l₁ with
  | nil => rfl
  | cons a l ih =>
      cases hpa : p a with
      | true => rw [List.find?_cons_of_pos _ hpa] at h; cases h
      | false =>
          rw [List.find?_cons_of_neg _ (by simp [hpa])] at h
          rw [List.cons_append, List.find?_cons_of_neg _ (by simp [hpa])]
          exact ih h

theorem kv_eq_append (K v : List Char) : K ++ '=' :: v = (K ++ ['=']) ++ v := by
  simp

theorem isPref_kv (K v : List Char) : isPref (K ++ ['=']) (K ++ '=' :: v) = true := by
  rw [kv_eq_append K v]; exact isPref_append _ _

theorem drop_kv (K v : List Char) : (K ++ '=' :: v).drop (K.length + 1) = v := by
  rw [kv_eq_append K v, show K.length + 1 = (K ++ ['=']).length by simp]
  exact List.drop_left _ _

theorem updateLines_ne_nil (K v : List Char) (ls : List (List Char)) :
    updateLines K v ls ≠ [] := by
  cases ls with
  | nil => simp [updateLines]
  | cons l ls => by_cases h : isPref (K ++ ['=']) l = true <;> simp [updateLines, h]

theorem mem_updateLines (K v : List Char) (ls : List (List Char)) :
    ∀ l ∈ updateLines K v ls, l ∈ ls ∨ l = K ++ '=' :: v := by
  induction ls with
  | nil => intro l hl; simp [updateLines] at hl; simp [hl]
  | cons x ls ih =>
      intro l hl
      by_cases hx : isPref (K ++ ['=']) x = true
      · simp only [updateLines, if_pos hx] at hl
        rcases List.mem_cons.mp hl with rfl | hl
        · simp
        · simp [hl]
      · simp only [updateLines, if_neg hx] at hl
        rcases List.mem_cons.mp hl with rfl | hl
        · simp
        · rcases ih l hl with h | h
          · simp [h]
          · simp [h]

theorem find?_updateLines (K v : List Char) (ls : List (List Char)) :
    (updateLines K v ls).find? (fun l => isPref (K ++ ['=']) l) = some (K ++ '=' :: v) := by
  induction ls with
  | nil =>
      simp only [updateLines]
      exact List.find?_cons_of_pos _ (isPref_kv K v)
  | cons x ls ih =>
      by_cases hx : isPref (K ++ ['=']) x = true
      · simp only [updateLines, if_pos hx]
        exact List.find?_cons_of_pos _ (isPref_kv K v)
      · simp only [updateLines, if_neg hx]
        rw [List.find?_cons_of_neg _ (by simpa using hx)]
        exact ih

theorem find?_updateLines_other (p : List Char → Bool) (K v : List Char)
    (ls : List (List Char)) (hkv : p (K ++ '=' :: v) = false)
    (himp : ∀ l, isPref (K ++ ['=']) l = true → p l = false) :
    (updateLines K v ls).find? p = ls.find? p := by
  induction ls with
  | nil =>
      simp only [updateLines]
      rw [List.find?_cons_of_neg _ (by simp [hkv])]
  | cons x ls ih =>
      by_cases hx : isPref (K ++ ['=']) x = true
      · simp only [updateLines, if_pos hx]
        rw [List.find?_cons_of_neg _ (by simp [hkv]),
          List.find?_cons_of_neg _ (by simp [himp x hx])]
      · simp only [updateLines, if_neg hx]
        cases hpx : p x with
        | true =>
            rw [List.find?_cons_of_pos _ hpx, List.find?_cons_of_pos _ hpx]
        | false =>
            rw [List.find?_cons_of_neg _ (by simp [hpx]),
              List.find?_cons_of_neg _ (by simp [hpx])]
            exact ih

theorem updateLines_filter (K v : List Char) (ls : List (List Char))
    (h : (ls.filter (fun l => isPref (K ++ ['=']) l)).length ≤ 1) :
    (updateLines K v ls).filter (fun l => isPref (K ++ ['=']) l) = [K ++ '=' :: v] := by
  induction ls with
  | nil => simp [updateLines, List.filter, isPref_kv K v]
  | cons x ls ih =>
      by_cases hx : isPref (K ++ ['=']) x = true
      · have hls : ls.filter (fun l => isPref (K ++ ['=']) l) = [] := by
          have h2 := h
          rw [show (x :: ls).filter (fun l => isPref (K ++ ['=']) l)
              = x :: ls.filter (fun l => isPref (K ++ ['=']) l) from
            List.filter_cons_of_pos hx] at h2
          simp only [List.length_cons] at h2
          have h3 : (ls.filter (fun l => isPref (K ++ ['=']) l)).length = 0 := by omega
          exact List.length_eq_zero.mp h3
        simp only [updateLines, if_pos hx]
        rw [List.filter_cons_of_pos (isPref_kv K v), hls]
      · rw [List.filter_cons_of_neg (by simpa using hx)] at h
        simp only [updateLines, if_neg hx]
        rw [List.filter_cons_of_neg (by simpa using hx)]
        exact ih h

theorem replaceFirstLine_ne_nil (K v : List Char) (ls : List (List Char))
    (h : ls ≠ []) : replaceFirstLine K v ls ≠ [] := by
  cases ls with
  | nil => exact absurd rfl h
  | cons x ls => by_cases hx : isPref (K ++ ['=']) x = true <;> simp [replaceFirstLine, hx]

theorem mem_replaceFirstLine (K v : List Char) (ls : List (List Char)) :
    ∀ l ∈ replaceFirstLine K v ls, l ∈ ls ∨ l = K ++ '=' :: v := by
  induction ls with
  | nil => intro l hl; simp [replaceFirstLine] at hl
  | cons x ls ih =>
      intro l hl
      by_cases hx : isPref (K ++ ['=']) x = true
      · simp only [replaceFirstLine, if_pos hx] at hl
        rcases List.mem_cons.mp hl with rfl | hl
        · simp
        · simp [hl]
      · simp only [replaceFirstLine, if_neg hx] at hl
        rcases List.mem_cons.mp hl with rfl | hl
        · simp
        · rcases ih l hl with h | h
          · simp [h]
          · simp [h]

theorem mem_replaceFirstLine_of_not_match (K v : List Char) (ls : List (List Char))
    (l : List Char) (hl : l ∈ ls) (hnm : isPref (K ++ ['=']) l = false) :
    l ∈ replaceFirstLine K v ls := by
  induction ls with
  | nil => simp at hl
  | cons x ls ih =>
      by_cases hx : isPref (K ++ ['=']) x = true
      · simp only [replaceFirstLine, if_pos hx]
        rcases List.mem_cons.mp hl with rfl | hl
        · rw [hx] at hnm; cases hnm
        · simp [hl]
      · simp only [replaceFirstLine, if_neg hx]
        rcases List.mem_cons.mp hl with rfl | hl
        · simp
        · simp [ih hl]

theorem find?_replaceFirstLine_self (K v : List Char) (ls : List (List Char))
    (h : ls.any (fun l => isPref (K ++ ['=']) l) = true) :
    (replaceFirstLine K v ls).find? (fun l => isPref (K ++ ['=']) l)
      = some (K ++ '=' :: v) := by
  induction ls with
  | nil => simp at h
  | cons x ls ih =>
      by_cases hx : isPref (K ++ ['=']) x = true
      · simp only [replaceFirstLine, if_pos hx]
        exact List.find?_cons_of_pos _ (isPref_kv K v)
      · simp only [List.any_cons, hx, Bool.false_or] at h
        simp only [replaceFirstLine, if_neg hx]
        rw [List.find?_cons_of_neg _ (by simpa using hx)]
        exact ih h

theorem find?_replaceFirstLine_other (p : List Char → Bool) (K v : List Char)
    (ls : List (List Char)) (hkv : p (K ++ '=' :: v) = false)
    (himp : ∀ l, isPref (K ++ ['=']) l = true → p l = false) :
    (replaceFirstLine K v ls).find? p = ls.find? p := by
  induction ls with
  | nil => rfl
  | cons x ls ih =>
      by_cases hx : isPref (K ++ ['=']) x = true
      · simp only [replaceFirstLine, if_pos hx]
        rw [List.find?_cons_of_neg _ (by simp [hkv]),
          List.find?_cons_of_neg _ (by simp [himp x hx])]
      · simp only [replaceFirstLine, if_neg hx]
        cases hpx : p x with
        | true =>
            rw [List.find?_cons_of_pos _ hpx, List.find?_cons_of_pos _ hpx]
        | false =>
            rw [List.find?_cons_of_neg _ (by simp [hpx]),
              List.find?_cons_of_neg _ (by simp [hpx])]
            exact ih

theorem not_newline_kv (K v : List Char) (hK : '\n' ∉ K) (hv : '\n' ∉ v) :
    '\n' ∉ K ++ '=' :: v := by
  intro h
  rcases List.mem_append.mp h with h | h
  · exact hK h
  · rcases List.mem_cons.mp h with h | h
    · exact absurd h.symm (by decide)
    · exact hv h

theorem updateLines_no_newline (K v : List Char) (ls : List (List Char))
    (hls : ∀ g ∈ ls, '\n' ∉ g) (hK : '\n' ∉ K) (hv : '\n' ∉ v) :
    ∀ g ∈ updateLines K v ls, '\n' ∉ g := by
  intro g hg
  rcases mem_updateLines K v ls g hg with h | rfl
  · exact hls g h
  · exact not_newline_kv K v hK hv

theorem replaceFirstLine_no_newline (K v : List Char) (ls : List (List Char))
    (hls : ∀ g ∈ ls, '\n' ∉ g) (hK : '\n' ∉ K) (hv : '\n' ∉ v) :
    ∀ g ∈ replaceFirstLine K v ls, '\n' ∉ g := by
  intro g hg
  rcases mem_replaceFirstLine K v ls g hg with h | rfl
  · exact hls g h
  · exact not_newline_kv K v hK hv

theorem splitNL_setEnvKey (K v c : List Char) (hK : '\n' ∉ K) (hv : '\n' ∉ v) :
    splitNL (setEnvKey K v c) =
      if hasSub (K ++ ['=']) c then replaceFirstLine K v (splitNL c)
      else splitNL c ++ [K ++ '=' :: v] := by
  unfold setEnvKey
  cases hb : hasSub (K ++ ['=']) c with
  | true =>
      rw [if_pos rfl, if_pos rfl]
      exact splitNL_joinNL _ (replaceFirstLine_ne_nil K v _ (splitNL_ne_nil c))
        (replaceFirstLine_no_newline K v _ (not_newline_mem_splitNL c) hK hv)
  | false =>
      rw [if_neg Bool.false_ne_true,
        if_neg Bool.false_ne_true]
      rw [splitNL_append_newline, splitNL_singleton _ (not_newline_kv K v hK hv)]

theorem find?_setEnvKey_self (K v c : List Char) (hK : '\n' ∉ K) (hv : '\n' ∉ v)
    (hc : hasSub (K ++ ['=']) c = (splitNL c).any (fun l => isPref (K ++ ['=']) l)) :
    (splitNL (setEnvKey K v c)).find? (fun l => isPref (K ++ ['=']) l)
      = some (K ++ '=' :: v) := by
  rw [splitNL_setEnvKey K v c hK hv]
  cases hb : hasSub (K ++ ['=']) c with
  | true =>
      rw [if_pos rfl]
      exact find?_replaceFirstLine_self K v _ (by rw [← hc]; exact hb)
  | false =>
      rw [if_neg Bool.false_ne_true]
      have hnone : (splitNL c).find? (fun l => isPref (K ++ ['=']) l) = none := by
        rw [List.find?_eq_none]
        intro x hx
        rw [hb] at hc
        have := List.any_eq_false.mp hc.symm
        simpa using this x hx
      rw [find?_append_none _ _ _ hnone]
      exact List.find?_cons_of_pos _ (isPref_kv K v)

theorem find?_setEnvKey_other (p : List Char → Bool) (K v c : List Char)
    (hK : '\n' ∉ K) (hv : '\n' ∉ v) (hkv : p (K ++ '=' :: v) = false)
    (himp : ∀ l, isPref (K ++ ['=']) l = true → p l = false) :
    (splitNL (setEnvKey K v c)).find? p = (splitNL c).find? p := by
  rw [splitNL_setEnvKey K v c hK hv]
  cases hb : hasSub (K ++ ['=']) c with
  | true =>
      rw [if_pos rfl]
      exact find?_replaceFirstLine_other p K v _ hkv himp
  | false =>
      rw [if_neg Bool.false_ne_true]
      cases hf : (splitNL c).find? p with
      | some x => exact find?_append_some p _ _ x hf
      | none =>
          rw [find?_append_none p _ _ hf]
          rw [List.find?_cons_of_neg _ (by simp [hkv])]
          rfl

theorem hasSub_setEnvKey_agree (P K v c : List Char)
    (hK : '\n' ∉ K) (hv : '\n' ∉ v) (hPne : P ≠ []) (hPnl : '\n' ∉ P)
    (hkvP : hasSub P (K ++ '=' :: v) = false)
    (hsurv : ∀ l, isPref P l = true → isPref (K ++ ['=']) l = false)
    (hc : hasSub P c = (splitNL c).any (fun l => isPref P l)) :
    hasSub P (setEnvKey K v c) = (splitNL (setEnvKey K v c)).any (fun l => isPref P l) := by
  rw [splitNL_setEnvKey K v c hK hv]
  unfold setEnvKey
  cases hb : hasSub (K ++ ['=']) c with
  | false =>
      rw [if_neg Bool.false_ne_true,
        if_neg Bool.false_ne_true]
      have hipkv : isPref P (K ++ '=' :: v) = false := by
        cases hip : isPref P (K ++ '=' :: v) with
        | false => rfl
        | true => rw [hasSub_of_isPref P _ hip] at hkvP; cases hkvP
      rw [hasSub_append_newline P hPne hPnl, hkvP, hc]
      simp [List.any_append, hipkv]
  | true =>
      rw [if_pos rfl, if_pos rfl]
      have key : (replaceFirstLine K v (splitNL c)).any (fun g => hasSub P g) = true →
          (replaceFirstLine K v (splitNL c)).any (fun l => isPref P l) = true := by
        intro h2
        obtain ⟨l, hl, hlsub⟩ := List.any_eq_true.mp h2
        rcases mem_replaceFirstLine K v _ l hl with hmem | rfl
        · have hcs : hasSub P c = true := by
            rw [hasSub_splitNL P hPne hPnl c]
            exact List.any_eq_true.mpr ⟨l, hmem, hlsub⟩
          rw [hc] at hcs
          obtain ⟨l0, hl0, hl0p⟩ := List.any_eq_true.mp hcs
          exact List.any_eq_true.mpr ⟨l0,
            mem_replaceFirstLine_of_not_match K v _ l0 hl0 (hsurv l0 hl0p), hl0p⟩
        · rw [hkvP] at hlsub; cases hlsub
      rw [hasSub_joinNL P hPne hPnl]
      cases hr : (replaceFirstLine K v (splitNL c)).any (fun l => isPref P l) with
      | true =>
          obtain ⟨l, hl, hlp⟩ := List.any_eq_true.mp hr
          exact List.any_eq_true.mpr ⟨l, hl, hasSub_of_isPref P l hlp⟩
      | false =>
          cases h2 : (replaceFirstLine K v (splitNL c)).any (fun g => hasSub P g) with
          | false => rfl
          | true => rw [key h2] at hr; cases hr

/-- C4 (as stated) fails: on a backing file that already holds two lines for
`K`, two sequential updates leave two lines for `K` — the update loop only
ever rewrites the first match. -/
theorem C4_counterexample :
    linesFor ['K']
        (update_env_var_content ['K'] ['y']
          (some (update_env_var_content ['K'] ['x']
            (some ['K', '=', 'a', '\n', 'K', '=', 'b']))))
      = [['K', '=', 'y'], ['K', '=', 'b']] := by decide

/-- C4 (amended): provided the initial backing file holds at most one line
for `K` and the key and values contain no newline, two sequential updates
leave exactly one line for `K`, holding the second value. -/
theorem C4_update_twice (file : Option (List Char)) (K v1 v2 : List Char)
    (hK : '\n' ∉ K) (hv1 : '\n' ∉ v1) (hv2 : '\n' ∉ v2)
    (hdup : (linesFor K (file.getD [])).length ≤ 1) :
    linesFor K (update_env_var_content K v2 (some (update_env_var_content K v1 file)))
      = [K ++ '=' :: v2] := by
  unfold linesFor update_env_var_content at *
  simp only [Option.getD_some] at *
  have hin : splitNL (joinNL (updateLines K v1 (splitNL (file.getD []))))
      = updateLines K v1 (splitNL (file.getD [])) :=
    splitNL_joinNL _ (updateLines_ne_nil _ _ _)
      (updateLines_no_newline K v1 _ (not_newline_mem_splitNL _) hK hv1)
  rw [hin]
  have hout : splitNL (joinNL (updateLines K v2 (updateLines K v1 (splitNL (file.getD [])))))
      = updateLines K v2 (updateLines K v1 (splitNL (file.getD []))) :=
    splitNL_joinNL _ (updateLines_ne_nil _ _ _)
      (updateLines_no_newline K v2 _
        (updateLines_no_newline K v1 _ (not_newline_mem_splitNL _) hK hv1) hK hv2)
  rw [hout]
  apply updateLines_filter
  rw [updateLines_filter K v1 _ hdup]
  simp

/-- Witness for C4 (amended) at a concrete file, key and values. -/
theorem C4_update_twice_witness :
    ('\n' ∉ ['K']) ∧
      linesFor ['K']
          (update_env_var_content ['K'] ['b']
            (some (update_env_var_content ['K'] ['a'] (none : Option (List Char)))))
        = [['K', '=', 'b']] :=
  ⟨by decide,
    C4_update_twice none ['K'] ['a'] ['b'] (by decide) (by decide) (by decide) (by decide)⟩

theorem isPref_gm_of_gd (l : List Char) (h : isPref (gdriveKey ++ ['=']) l = true) :
    isPref (gmailKey ++ ['=']) l = false := by
  obtain ⟨r, rfl⟩ := (isPref_iff _ _).mp h
  rfl

theorem isPref_gd_of_gm (l : List Char) (h : isPref (gmailKey ++ ['=']) l = true) :
    isPref (gdriveKey ++ ['=']) l = false := by
  obtain ⟨r, rfl⟩ := (isPref_iff _ _).mp h
  rfl

theorem isPref_gm_gdkv (tok : List Char) :
    isPref (gmailKey ++ ['=']) (gdriveKey ++ '=' :: tok) = false := rfl

theorem hasSub_gd_gmkv (tok : List Char) :
    hasSub (gdriveKey ++ ['=']) (gmailKey ++ '=' :: tok)
      = hasSub (gdriveKey ++ ['=']) tok := rfl

/-- C9 (amended): on a successful exchange, provided each refresh-token key
occurs in the backing file only at line starts (the substring test agrees
with the line-start test) and the token contains no newline and no embedded
`GDRIVE_REFRESH_TOKEN=`, the written file holds the same token under both
`GMAIL_REFRESH_TOKEN` and `GDRIVE_REFRESH_TOKEN`. -/
theorem C9_refresh_token_two_keys (c tok : List Char)
    (hg : hasSub (gmailKey ++ ['=']) c
      = (splitNL c).any (fun l => isPref (gmailKey ++ ['=']) l))
    (hd : hasSub (gdriveKey ++ ['=']) c
      = (splitNL c).any (fun l => isPref (gdriveKey ++ ['=']) l))
    (htok : '\n' ∉ tok) (htg : hasSub (gdriveKey ++ ['=']) tok = false) :
    update_env_with_refresh_token tok (some c)
      = some (setEnvKey gdriveKey tok (setEnvKey gmailKey tok c))
    ∧ entryFor gmailKey (setEnvKey gdriveKey tok (setEnvKey gmailKey tok c)) = some tok
    ∧ entryFor gdriveKey (setEnvKey gdriveKey tok (setEnvKey gmailKey tok c)) = some tok := by
  have hKg : '\n' ∉ gmailKey := by decide
  have hKd : '\n' ∉ gdriveKey := by decide
  refine ⟨rfl, ?_, ?_⟩
  · unfold entryFor
    rw [find?_setEnvKey_other (fun l => isPref (gmailKey ++ ['=']) l) gdriveKey tok _
      hKd htok (isPref_gm_gdkv tok) (fun l h => isPref_gm_of_gd l h)]
    rw [find?_setEnvKey_self gmailKey tok c hKg htok hg]
    simp [drop_kv]
  · have hc1 : hasSub (gdriveKey ++ ['=']) (setEnvKey gmailKey tok c)
        = (splitNL (setEnvKey gmailKey tok c)).any (fun l => isPref (gdriveKey ++ ['=']) l) :=
      hasSub_setEnvKey_agree (gdriveKey ++ ['=']) gmailKey tok c hKg htok (by decide)
        (by decide) (by rw [hasSub_gd_gmkv tok]; exact htg)
        (fun l h => isPref_gm_of_gd l h) hd
    unfold entryFor
    rw [find?_setEnvKey_self gdriveKey tok _ hKd htok hc1]
    simp [drop_kv]

/-- Witness for C9 (amended) at a concrete file and token. -/
theorem C9_refresh_token_two_keys_witness :
    ('\n' ∉ ['a', 'b']) ∧
      entryFor gmailKey (setEnvKey gdriveKey ['a', 'b'] (setEnvKey gmailKey ['a', 'b'] []))
        = some ['a', 'b']
    ∧ entryFor gdriveKey (setEnvKey gdriveKey ['a', 'b'] (setEnvKey gmailKey ['a', 'b'] []))
        = some ['a', 'b'] :=
  ⟨by decide,
    (C9_refresh_token_two_keys [] ['a', 'b'] (by decide) (by decide) (by decide)
      (by decide)).2⟩

/-- C9 (as stated) fails: on a file whose only mention of
`GMAIL_REFRESH_TOKEN=` is embedded mid-line (`MY_GMAIL_REFRESH_TOKEN=x`),
the substring test selects the replace path but no line starts with the
key, so the write succeeds while persisting no `GMAIL_REFRESH_TOKEN`
entry at all. -/
theorem C9_counterexample :
    (update_env_with_refresh_token ['t']
        (some "MY_GMAIL_REFRESH_TOKEN=x".toList)).map (fun r => entryFor gmailKey r)
      = some none := by decide

/-- C3 (amended): the exchange returns `True` (COMPLETE) only for an
HTTP-200 response whose JSON body has a `refresh_token` key (emptiness is
not checked); an HTTP-200 response without the key and any non-200
response return `False` (FAILED) with the backing file untouched. -/
theorem C3_exchange_outcomes (resp : TokenResponse) (file : Option (List Char)) :
    ((exchange_for_refresh_token resp file).1 = true →
      resp.status = 200 ∧ ∃ td, resp.jsonBody = some td
        ∧ ∃ rt, td.lookup "refresh_token" = some rt)
    ∧ (∀ td, resp.status = 200 → resp.jsonBody = some td →
        td.lookup "refresh_token" = none →
        exchange_for_refresh_token resp file = (false, file))
    ∧ (resp.status ≠ 200 → exchange_for_refresh_token resp file = (false, file)) := by
  refine ⟨?_, ?_, ?_⟩
  · intro h
    by_cases h200 : resp.status = 200
    · cases hj : resp.jsonBody with
      | none => simp [exchange_for_refresh_token, h200, hj] at h
      | some td =>
          cases hrt : td.lookup "refresh_token" with
          | none => simp [exchange_for_refresh_token, h200, hj, hrt] at h
          | some rt => exact ⟨h200, td, rfl, rt, hrt⟩
    · simp [exchange_for_refresh_token, h200] at h
  · intro td h200 hj hrt
    simp [exchange_for_refresh_token, h200, hj, hrt]
  · intro h200
    simp [exchange_for_refresh_token, h200]

/-- Witness for C3 (amended): a non-200 response and a 200 response with no
`refresh_token` key both fail and leave the file unchanged. -/
theorem C3_exchange_outcomes_witness :
    exchange_for_refresh_token ⟨404, none, []⟩ (some []) = (false, some [])
    ∧ exchange_for_refresh_token ⟨200, some [("access_token", "x")], []⟩ (some [])
      = (false, some []) :=
  ⟨(C3_exchange_outcomes ⟨404, none, []⟩ (some [])).2.2 (by decide),
    (C3_exchange_outcomes ⟨200, some [("access_token", "x")], []⟩ (some [])).2.1
      [("access_token", "x")] rfl rfl (by decide)⟩

/-- C3 (as stated) fails: an HTTP-200 response whose `refresh_token` is the
empty string still reaches the success path and persists the empty token —
the code checks key presence, not non-emptiness. -/
theorem C3_counterexample :
    (exchange_for_refresh_token ⟨200, some [("refresh_token", "")], []⟩ (some [])).1 = true
    ∧ [("refresh_token", "")].lookup "refresh_token" = some "" := by decide

theorem entry_after_two_updates (file : Option (List Char)) (K1 v1 K2 v2 : List Char)
    (hK1 : '\n' ∉ K1) (hv1 : '\n' ∉ v1) (hK2 : '\n' ∉ K2) (hv2 : '\n' ∉ v2)
    (hkv : isPref (K1 ++ ['=']) (K2 ++ '=' :: v2) = false)
    (himp : ∀ l, isPref (K2 ++ ['=']) l = true → isPref (K1 ++ ['=']) l = false) :
    entryFor K1 (update_env_var_content K2 v2 (some (update_env_var_content K1 v1 file)))
      = some v1
    ∧ entryFor K2 (update_env_var_content K2 v2 (some (update_env_var_content K1 v1 file)))
      = some v2 := by
  unfold entryFor update_env_var_content
  simp only [Option.getD_some]
  have hin : splitNL (joinNL (updateLines K1 v1 (splitNL (file.getD []))))
      = updateLines K1 v1 (splitNL (file.getD [])) :=
    splitNL_joinNL _ (updateLines_ne_nil _ _ _)
      (updateLines_no_newline K1 v1 _ (not_newline_mem_splitNL _) hK1 hv1)
  rw [hin]
  have hout : splitNL (joinNL (updateLines K2 v2 (updateLines K1 v1 (splitNL (file.getD [])))))
      = updateLines K2 v2 (updateLines K1 v1 (splitNL (file.getD []))) :=
    splitNL_joinNL _ (updateLines_ne_nil _ _ _)
      (updateLines_no_newline K2 v2 _
        (updateLines_no_newline K1 v1 _ (not_newline_mem_splitNL _) hK1 hv1) hK2 hv2)
  rw [hout]
  constructor
  · rw [find?_updateLines_other _ K2 v2 _ hkv himp, find?_updateLines]
    simp [drop_kv]
  · rw [find?_updateLines]
    simp [drop_kv]

theorem isPref_use_of_saf (l : List Char)
    (h : isPref ("SERVICE_ACCOUNT_FILE".toList ++ ['=']) l = true) :
    isPref ("USE_SERVICE_ACCOUNT".toList ++ ['=']) l = false := by
  obtain ⟨r, rfl⟩ := (isPref_iff _ _).mp h
  rfl

/-- C2 (as stated) fails: the source copies the key material into the
restricted storage location *before* validating it, so material missing
`private_key` is persisted even though the call reports failure. -/
theorem C2_counterexample :
    (set_service_account_credentials ⟨[], none, none, none⟩
        (some (some [("type", "t"), ("project_id", "p"), ("client_email", "e")]))).1 = false
    ∧ (set_service_account_credentials ⟨[], none, none, none⟩
        (some (some [("type", "t"), ("project_id", "p"), ("client_email", "e")]))).2.serviceAccountFile
      = some (some [("type", "t"), ("project_id", "p"), ("client_email", "e")]) := by
  decide

/-- C2 (amended): on key material missing a required field the call fails
and the two CredentialStore entries are not written, but the copy into the
restricted storage location is written regardless (before validation); when
all four required fields are present the call succeeds and writes the copy
and both entries. -/
theorem C2_set_service_account (st : CMState) (o : List (String × String)) :
    (required_fields.all (fun f => hasField o f) = false →
      (set_service_account_credentials st (some (some o))).1 = false
      ∧ (set_service_account_credentials st (some (some o))).2.envFile = st.envFile
      ∧ (set_service_account_credentials st (some (some o))).2.serviceAccountFile
        = some (some o))
    ∧ (required_fields.all (fun f => hasField o f) = true →
      (set_service_account_credentials st (some (some o))).1 = true
      ∧ (set_service_account_credentials st (some (some o))).2.serviceAccountFile
        = some (some o)
      ∧ entryFor "USE_SERVICE_ACCOUNT".toList
          ((set_service_account_credentials st (some (some o))).2.envFile.getD [])
          = some "true".toList
      ∧ entryFor "SERVICE_ACCOUNT_FILE".toList
          ((set_service_account_credentials st (some (some o))).2.envFile.getD [])
          = some "config/service_account.json".toList) := by
  constructor
  · intro h
    refine ⟨?_, ?_, ?_⟩ <;> simp [set_service_account_credentials, h]
  · intro h
    have hentry := entry_after_two_updates st.envFile
      "USE_SERVICE_ACCOUNT".toList "true".toList
      "SERVICE_ACCOUNT_FILE".toList "config/service_account.json".toList
      (by decide) (by decide) (by decide) (by decide) (by decide)
      isPref_use_of_saf
    refine ⟨by simp [set_service_account_credentials, h, update_env_var],
      by simp [set_service_account_credentials, h, update_env_var], ?_, ?_⟩
    · simpa [set_service_account_credentials, h, update_env_var] using hentry.1
    · simpa [set_service_account_credentials, h, update_env_var] using hentry.2

/-- Witness for C2 (amended): a concrete missing-field failure and a
concrete all-fields success. -/
theorem C2_set_service_account_witness :
    (set_service_account_credentials ⟨[], none, none, none⟩
        (some (some [("type", "t"), ("project_id", "p"), ("client_email", "e")]))).2.envFile
      = none
    ∧ (set_service_account_credentials ⟨[], none, none, none⟩
        (some (some [("type", "t"), ("project_id", "p"), ("private_key", "k"),
          ("client_email", "e")]))).1 = true :=
  ⟨((C2_set_service_account ⟨[], none, none, none⟩ _).1 (by decide)).2.1,
    ((C2_set_service_account ⟨[], none, none, none⟩ _).2 (by decide)).1⟩

/-- C5: a value written by `_update_env_var` is invisible to the getters in
the same process — `get_telegram_credentials` resolves only from the
process environment overlay, which the update never touches. -/
theorem C5_update_invisible_to_get (st : CMState) (key value : List Char) :
    get_telegram_credentials (update_env_var st key value) = get_telegram_credentials st
    ∧ (update_env_var st key value).procEnv = st.procEnv
    ∧ ∀ k, getenv (update_env_var st key value) k = getenv st k :=
  ⟨rfl, rfl, fun _ => rfl⟩

/-- C6: when the master-key file exists `_get_or_create_encryption_key`
returns exactly its stored bytes and leaves the whole state unchanged; a
fresh key is generated and written only when the file is absent. -/
theorem C6_key_never_regenerated (st : CMState) (fresh k : List Nat) :
    (st.keyFile = some k → get_or_create_encryption_key st fresh = (k, st))
    ∧ (st.keyFile = none →
        get_or_create_encryption_key st fresh
          = (fresh, { st with keyFile := some fresh })) := by
  constructor <;> intro h <;> simp [get_or_create_encryption_key, h]

/-- Witness for C6 at a concrete state with and without a key file. -/
theorem C6_key_never_regenerated_witness :
    get_or_create_encryption_key ⟨[], none, none, some [5, 6]⟩ [9]
      = ([5, 6], ⟨[], none, none, some [5, 6]⟩)
    ∧ get_or_create_encryption_key ⟨[], none, none, none⟩ [9]
      = ([9], ⟨[], none, none, some [9]⟩) :=
  ⟨(C6_key_never_regenerated ⟨[], none, none, some [5, 6]⟩ [9] [5, 6]).1 rfl,
    (C6_key_never_regenerated ⟨[], none, none, none⟩ [9] [5, 6]).2 rfl⟩

/-- C10: `get_service_account_credentials` is total and returns `None` both
when no key material file exists and when the stored file is unparseable or
fails to load; it returns credentials only for well-formed material. -/
theorem C10_get_service_account_total (st : CMState) :
    (st.serviceAccountFile = none → get_service_account_credentials st = none)
    ∧ (st.serviceAccountFile = some none → get_service_account_credentials st = none)
    ∧ (∀ o, st.serviceAccountFile = some (some o) →
        required_fields.all (fun f => hasField o f) = false →
        get_service_account_credentials st = none)
    ∧ (∀ o, st.serviceAccountFile = some (some o) →
        required_fields.all (fun f => hasField o f) = true →
        get_service_account_credentials st = some (o, scopes_list)) := by
  refine ⟨?_, ?_, ?_, ?_⟩
  · intro h; simp [get_service_account_credentials, h]
  · intro h; simp [get_service_account_credentials, from_service_account_file, h]
  · intro o h hf
    simp [get_service_account_credentials, from_service_account_file, h, hf]
  · intro o h hf
    simp [get_service_account_credentials, from_service_account_file, h, hf]

/-- Witness for C10 at concrete filesystem states: absent, unparseable,
missing-field, and well-formed. -/
theorem C10_get_service_account_total_witness :
    get_service_account_credentials ⟨[], none, none, none⟩ = none
    ∧ get_service_account_credentials ⟨[], none, some none, none⟩ = none
    ∧ get_service_account_credentials ⟨[], none, some (some [("type", "t")]), none⟩ = none
    ∧ get_service_account_credentials
        ⟨[], none, some (some [("type", "t"), ("project_id", "p"), ("private_key", "k"),
          ("client_email", "e")]), none⟩
      = some ([("type", "t"), ("project_id", "p"), ("private_key", "k"),
          ("client_email", "e")], scopes_list) :=
  ⟨(C10_get_service_account_total ⟨[], none, none, none⟩).1 rfl,
    (C10_get_service_account_total ⟨[], none, some none, none⟩).2.1 rfl,
    (C10_get_service_account_total ⟨[], none, some (some [("type", "t")]), none⟩).2.2.1
      [("type", "t")] rfl (by decide),
    (C10_get_service_account_total _).2.2.2 _ rfl (by decide)⟩

/-- C8: with no key material and no messaging variables `validate_all`
reports both flags false; the telegram flag is true exactly when both the
bot token and the chat id are non-empty; configuring the service account
flips only its flag, and configuring the messaging variables flips only
the telegram flag. -/
theorem C8_validate_all_independent (st : CMState) (o : List (String × String))
    (tokv chatv : String)
    (hsa : st.serviceAccountFile = none)
    (hall : required_fields.all (fun f => hasField o f) = true)
    (htok : tokv ≠ "") (hchat : chatv ≠ "") :
    (getenv st "TELEGRAM_BOT_TOKEN" = "" → getenv st "TELEGRAM_CHAT_ID" = "" →
      validate_all_credentials st = ⟨false, false⟩)
    ∧ validate_all_credentials st
        = ⟨false, (getenv st "TELEGRAM_BOT_TOKEN" != "")
            && (getenv st "TELEGRAM_CHAT_ID" != "")⟩
    ∧ validate_all_credentials (set_service_account_credentials st (some (some o))).2
        = ⟨true, (validate_all_credentials st).telegram⟩
    ∧ validate_all_credentials
        { st with procEnv :=
            ("TELEGRAM_BOT_TOKEN", tokv) :: ("TELEGRAM_CHAT_ID", chatv) :: st.procEnv }
        = ⟨(validate_all_credentials st).service_account, true⟩ := by
  refine ⟨?_, ?_, ?_, ?_⟩
  · intro h1 h2
    simp [validate_all_credentials, get_service_account_credentials, hsa, h1, h2]
  · simp [validate_all_credentials, get_service_account_credentials, hsa]
  · simp [validate_all_credentials, get_service_account_credentials,
      set_service_account_credentials, hall, update_env_var,
      from_service_account_file, getenv]
  · simp [validate_all_credentials, get_service_account_credentials, getenv,
      List.lookup, htok, hchat]

/-- Witness for C8 at a concrete empty state, key material and messaging
values. -/
theorem C8_validate_all_independent_witness :
    validate_all_credentials ⟨[], none, none, none⟩ = ⟨false, false⟩
    ∧ validate_all_credentials
        (set_service_account_credentials ⟨[], none, none, none⟩
          (some (some [("type", "t"), ("project_id", "p"), ("private_key", "k"),
            ("client_email", "e")]))).2
      = ⟨true, (validate_all_credentials ⟨[], none, none, none⟩).telegram⟩
    ∧ validate_all_credentials
        ⟨[("TELEGRAM_BOT_TOKEN", "t"), ("TELEGRAM_CHAT_ID", "c")], none, none, none⟩
      = ⟨(validate_all_credentials ⟨[], none, none, none⟩).service_account, true⟩ :=
  ⟨(C8_validate_all_independent ⟨[], none, none, none⟩
      [("type", "t"), ("project_id", "p"), ("private_key", "k"), ("client_email", "e")]
      "t" "c" rfl (by decide) (by decide) (by decide)).1 rfl rfl,
    (C8_validate_all_independent ⟨[], none, none, none⟩
      [("type", "t"), ("project_id", "p"), ("private_key", "k"), ("client_email", "e")]
      "t" "c" rfl (by decide) (by decide) (by decide)).2.2.1,
    (C8_validate_all_independent ⟨[], none, none, none⟩
      [("type", "t"), ("project_id", "p"), ("private_key", "k"), ("client_email", "e")]
      "t" "c" rfl (by decide) (by decide) (by decide)).2.2.2⟩
